import Mathlib

/- Verification of the hierarchy / selection core of bevy-inspector-egui.

   Shallow embedding of
   crates/bevy-inspector-egui/src/bevy_inspector/hierarchy.rs and
   crates/bevy-inspector-egui/src/inspector_egui_impls/image.rs.

   Entities are modelled as natural numbers (the source type is an opaque
   identifier with a derived total order).  The u8 field depth is modelled as
   a natural number with arithmetic taken modulo 256 at the one place the
   source increments it.  The entity-component store is modelled by the two
   lookups the code uses: the child list of an entity and its display name.
   Recursive walks over the store carry an explicit fuel argument, since the
   source recursion is not structurally terminating on arbitrary graphs. -/

abbrev Entity := Nat

/-- One node of the flattened snapshot (struct HierarchyElement). -/
structure HierarchyElement where
  entity : Entity
  parent : Option Entity
  name : String
  depth : Nat
  has_children : Bool
deriving DecidableEq

/-- The graph-read primitives used by the traversal: per entity, the optional
child list (world.get::<Children>) and the display name (guess_entity_name). -/
structure World where
  children : Entity → Option (List Entity)
  name : Entity → String

/-- HierarchyStructure::add_recursive.  Pushes one element for the visited
entity, then walks its children in stored order, each with the incremented
depth (u8 addition, hence modulo 256) and parent set to the visited entity.
The list returned is the sequence of elements pushed by this call. -/
def add_recursive (w : World) : Nat → Nat → Entity → Option Entity → List HierarchyElement
  | 0, _, _, _ => []
  | fuel + 1, depth, entity, parent =>
    let children := w.children entity
    { entity := entity, parent := parent, name := w.name entity,
      depth := depth, has_children := children.isSome } ::
      (match children with
       | none => []
       | some cs => cs.flatMap fun c => add_recursive w fuel ((depth + 1) % 256) c (some entity))

/-- HierarchyStructure::read_from_world.  The root query result is passed in
as a list (in arbitrary enumeration order); it is sorted by the total order
on identifiers, then each root is traversed pre-order at depth 0. -/
def read_from_world (w : World) (roots : List Entity) (fuel : Nat) : List HierarchyElement :=
  (roots.insertionSort (· ≤ ·)).flatMap fun root => add_recursive w fuel 0 root none

/-- HierarchyStructure::is_visible.  A root (parent none) is visible; a child
is visible when the first element of the list carrying its parent entity is
marked expanded and is itself visible.  The expanded lookup models the
per-entity boolean stored in the egui data map (default false).  Fuel bounds
the recursion along the parent chain. -/
def is_visible (elements : List HierarchyElement) (expanded : Entity → Bool) :
    Nat → HierarchyElement → Bool
  | 0, _ => false
  | fuel + 1, el =>
    match el.parent with
    | none => true
    | some parent =>
      match elements.find? (fun e => e.entity == parent) with
      | some pe => expanded pe.entity && is_visible elements expanded fuel pe
      | none => false

/-- HierarchyStructure::read_expanded.  Clears visible_elements and pushes the
entity of every element that is_visible accepts, in element order.  Fuel
elements.length + 1 is enough for every terminating chain (see the lemmas
below). -/
def read_expanded (elements : List HierarchyElement) (expanded : Entity → Bool) : List Entity :=
  (elements.filter fun el => is_visible elements expanded (elements.length + 1) el).map
    (fun el => el.entity)

/-- Modelled from the spec: an element is visible iff its parent is none, or
its parent element (the first element of the list carrying the parent entity)
is both visible, transitively, and marked expanded. -/
inductive SpecVisible (elements : List HierarchyElement) (expanded : Entity → Bool) :
    HierarchyElement → Prop
  | root (el : HierarchyElement) : el.parent = none → SpecVisible elements expanded el
  | child (el pe : HierarchyElement) (p : Entity) :
      el.parent = some p →
      elements.find? (fun e => e.entity == p) = some pe →
      expanded pe.entity = true →
      SpecVisible elements expanded pe →
      SpecVisible elements expanded el

/-- The pre-order guarantee: every parent reference points at an element that
occurs at a strictly smaller index. -/
def ParentsEarlier (elements : List HierarchyElement) : Prop :=
  ∀ i, ∀ hi : i < elements.length, ∀ p,
    (elements.get ⟨i, hi⟩).parent = some p →
    ∃ j, ∃ hj : j < elements.length, j < i ∧ (elements.get ⟨j, hj⟩).entity = p

/-- enum SelectionMode. -/
inductive SelectionMode where
  | Replace
  | Add
  | Extend
deriving DecidableEq

/-- struct SelectedEntities. -/
structure SelectedEntities where
  entities : List Entity
  last_action : Option (SelectionMode × Entity)
deriving DecidableEq

/-- Default::default() for SelectedEntities. -/
def SelectedEntities.empty : SelectedEntities := ⟨[], none⟩

/-- SelectedEntities::contains. -/
def SelectedEntities.contains (s : SelectedEntities) (entity : Entity) : Bool :=
  s.entities.contains entity

/-- SelectedEntities::insert: push at the end unless already present. -/
def SelectedEntities.insert (s : SelectedEntities) (entity : Entity) : SelectedEntities :=
  if s.contains entity then s else { s with entities := s.entities ++ [entity] }

/-- SelectedEntities::insert_replace: clear then push the single entity. -/
def SelectedEntities.insert_replace (s : SelectedEntities) (entity : Entity) : SelectedEntities :=
  { s with entities := [entity] }

/-- Iterator::position over a list: index of the first element matching p. -/
def position (p : Entity → Bool) : List Entity → Option Nat
  | [] => none
  | a :: l => if p a then some 0 else (position p l).map (· + 1)

/-- SelectedEntities::remove: remove the element at the first index holding
the entity and return it; leave the state unchanged when absent. -/
def SelectedEntities.remove (s : SelectedEntities) (entity : Entity) :
    SelectedEntities × Option Entity :=
  match position (fun e => e == entity) s.entities with
  | some idx => ({ s with entities := s.entities.eraseIdx idx }, s.entities[idx]?)
  | none => (s, none)

/-- SelectedEntities::toggle: remove when present, else push. -/
def SelectedEntities.toggle (s : SelectedEntities) (entity : Entity) : SelectedEntities :=
  match s.remove entity with
  | (s', removed) =>
    if removed.isNone then { s' with entities := s'.entities ++ [entity] } else s'

/-- SelectedEntities::clear: empties the entity list, last_action untouched. -/
def SelectedEntities.clear (s : SelectedEntities) : SelectedEntities :=
  { s with entities := [] }

/-- SelectedEntities::select.  Matches the source on (len, mode): an empty
selection bootstraps with a plain insert for any mode; Replace and Add call
insert_replace and toggle; Extend inserts the resolved range after clearing
when the previous action was Replace or Add, and returns early without
touching last_action.  All other branches set last_action to (mode, entity). -/
def SelectedEntities.select (s : SelectedEntities) (mode : SelectionMode) (entity : Entity)
    (extend_with : Entity → Entity → List Entity) : SelectedEntities :=
  if s.entities.length = 0 then
    { s.insert entity with last_action := some (mode, entity) }
  else
    match mode with
    | .Replace => { s.insert_replace entity with last_action := some (mode, entity) }
    | .Add => { s.toggle entity with last_action := some (mode, entity) }
    | .Extend =>
      match s.last_action with
      | none => { s.insert entity with last_action := some (mode, entity) }
      | some (last_mode, last_entity) =>
        let s' := match last_mode with
          | .Add | .Replace => s.clear
          | .Extend => s
        (extend_with entity last_entity).foldl (fun acc e => acc.insert e) s'

/-- A sequence of select calls starting from the empty selection. -/
def run_selects (ops : List (SelectionMode × Entity × (Entity → Entity → List Entity))) :
    SelectedEntities :=
  ops.foldl (fun s op => s.select op.1 op.2.1 op.2.2) SelectedEntities.empty

/-- Handle of an image asset, identified by its id (Handle<Image>). -/
structure ImageHandle where
  id : Nat
deriving DecidableEq

/-- egui SizedTexture: a texture id plus a size. -/
structure SizedTexture where
  id : Nat
  size : Nat × Nat
deriving DecidableEq

/-- struct RescaledTextureInfo. -/
structure RescaledTextureInfo where
  base_image : ImageHandle
  scaled_image : ImageHandle
  info : SizedTexture
deriving DecidableEq

/-- struct ScaledDownTextures (the cache resource). -/
structure ScaledDownTextures where
  textures : List RescaledTextureInfo
  max_size : Nat × Nat
deriving DecidableEq

/-- The external image pipeline used on a cache miss: try_into_dynamic,
resize, from_dynamic and the resulting width and height.  Image contents are
opaque codes; the pipeline is an arbitrary deterministic function of them. -/
structure ImageOps where
  try_into_dynamic : Nat → Option (Nat × Bool)
  resize : Nat → Nat → Nat → Nat
  from_dynamic : Nat → Bool → Nat
  dims : Nat → Nat × Nat

/-- The slice of RestrictedWorldView that get_or_load touches: the optional
cache resource (none models a failing get_resource_mut), whether the
EguiUserTextures and Assets<Image> pair is accessible, the image store, and
the fresh-id counters backing Assets::add and add_image. -/
structure RestrictedWorldView where
  scaled_down_textures : Option ScaledDownTextures
  egui_ok : Bool
  images : Nat → Option Nat
  next_image_id : Nat
  next_texture_id : Nat

/-- ScaledDownTextures::get_or_load.  Returns the first cached entry whose
base_image id equals the id of the requested handle, leaving the world
untouched; otherwise runs the conversion pipeline, registers the resized
image and texture, pushes the new entry when the cache resource is
accessible, and returns it.  Every failure path returns none and leaves the
world untouched. -/
def get_or_load (ops : ImageOps) (image : ImageHandle) (world : RestrictedWorldView) :
    Option RescaledTextureInfo × RestrictedWorldView :=
  match world.scaled_down_textures.bind
      (fun resource => resource.textures.find? fun info => info.base_image.id == image.id) with
  | some res => (some res, world)
  | none =>
    let max_size : Nat × Nat :=
      match world.scaled_down_textures with
      | some res => res.max_size
      | none => (100, 100)
    if world.egui_ok then
      match world.images image.id with
      | none => (none, world)
      | some original =>
        match ops.try_into_dynamic original with
        | none => (none, world)
        | some (image_gen, is_srgb) =>
          let resized := ops.from_dynamic (ops.resize image_gen max_size.1 max_size.2) is_srgb
          let size := ops.dims resized
          let resized_handle : ImageHandle := ⟨world.next_image_id⟩
          let world1 : RestrictedWorldView :=
            { world with
              images := fun h => if h = world.next_image_id then some resized else world.images h,
              next_image_id := world.next_image_id + 1 }
          let texture_id := world1.next_texture_id
          let world2 : RestrictedWorldView :=
            { world1 with next_texture_id := world1.next_texture_id + 1 }
          let new_texture_info : RescaledTextureInfo :=
            { base_image := image, scaled_image := resized_handle,
              info := { id := texture_id, size := size } }
          let world3 : RestrictedWorldView :=
            match world.scaled_down_textures with
            | some res =>
              let res2 : ScaledDownTextures :=
                { res with textures := res.textures ++ [new_texture_info] }
              { world2 with scaled_down_textures := some res2 }
            | none => world2
          (some new_texture_info, world3)
    else (none, world)

/-- A 257-deep parent chain: entity i has the single child i + 1 for
i < 256.  Exercises the u8 depth counter past its range. -/
def chain_world : World :=
  { children := fun i => if i < 256 then some [i + 1] else none,
    name := fun _ => "" }

/-- The snapshot of the chain world rooted at entity 0. -/
def chain_elements : List HierarchyElement :=
  read_from_world chain_world [0] 300

/-- A two-entity world: entity 1 has the single child 2. -/
def two_world : World :=
  { children := fun i => if i = 1 then some [2] else none,
    name := fun _ => "" }

/-- A concrete image pipeline used for witnesses and counterexamples. -/
def probe_ops : ImageOps :=
  { try_into_dynamic := fun n => some (n, true),
    resize := fun d _ _ => d,
    from_dynamic := fun d _ => d,
    dims := fun _ => (5, 5) }

/-- A world view holding image 0 whose ScaledDownTextures resource is not
accessible. -/
def probe_world : RestrictedWorldView :=
  { scaled_down_textures := none,
    egui_ok := true,
    images := fun h => if h = 0 then some 7 else none,
    next_image_id := 100,
    next_texture_id := 200 }

/-- A cached entry for image 0. -/
def probe_entry : RescaledTextureInfo :=
  { base_image := ⟨0⟩, scaled_image := ⟨50⟩, info := { id := 60, size := (5, 5) } }

/-- A world view whose cache resource already holds probe_entry. -/
def probe_world2 : RestrictedWorldView :=
  { scaled_down_textures := some { textures := [probe_entry], max_size := (100, 100) },
    egui_ok := true,
    images := fun h => if h = 0 then some 7 else none,
    next_image_id := 100,
    next_texture_id := 200 }

/-- Every parent reference of an element of the second list resolves, with the
right depth, to an element of the context list extended with the elements
that precede it in the second list. -/
def linked (ctx : List HierarchyElement) (el : HierarchyElement) : Prop :=
  ∀ p, el.parent = some p → ∃ pe ∈ ctx, pe.entity = p ∧ el.depth = (pe.depth + 1) % 256

/-- The parent-linkage invariant of a list of elements relative to a context
of elements known to precede all of them. -/
def LinkInv : List HierarchyElement → List HierarchyElement → Prop
  | _, [] => True
  | ctx, el :: rest => linked ctx el ∧ LinkInv (ctx ++ [el]) rest

/-- Membership form of SelectedEntities.contains. -/
theorem contains_iff (s : SelectedEntities) (e : Entity) :
    s.contains e = true ↔ e ∈ s.entities := by
  simp [SelectedEntities.contains, List.elem_iff]

/-- insert does not touch last_action. -/
theorem insert_last_action (s : SelectedEntities) (e : Entity) :
    (s.insert e).last_action = s.last_action := by
  unfold SelectedEntities.insert
  split <;> rfl

/-- insert on a state already holding the entity is the identity. -/
theorem insert_entities_of_mem (s : SelectedEntities) (e : Entity) (h : e ∈ s.entities) :
    (s.insert e).entities = s.entities := by
  unfold SelectedEntities.insert
  rw [if_pos ((contains_iff s e).mpr h)]

/-- insert on a state not holding the entity pushes it at the end. -/
theorem insert_entities_of_not_mem (s : SelectedEntities) (e : Entity) (h : e ∉ s.entities) :
    (s.insert e).entities = s.entities ++ [e] := by
  unfold SelectedEntities.insert
  rw [if_neg (fun hc => h ((contains_iff s e).mp hc))]

/-- insert preserves freedom from duplicates. -/
theorem insert_nodup (s : SelectedEntities) (e : Entity) (h : s.entities.Nodup) :
    (s.insert e).entities.Nodup := by
  by_cases hm : e ∈ s.entities
  · rw [insert_entities_of_mem s e hm]; exact h
  · rw [insert_entities_of_not_mem s e hm]
    exact (List.perm_append_singleton e s.entities).nodup_iff.mpr
      (List.nodup_cons.mpr ⟨hm, h⟩)

/-- When the first-match scan misses, the entity is absent. -/
theorem position_eq_none (e : Entity) (l : List Entity) :
    position (fun x => x == e) l = none ↔ e ∉ l := by
  induction l with
  | nil => simp [position]
  | cons a l ih =>
    by_cases ha : (a == e) = true
    · have hae : a = e := beq_iff_eq.mp ha
      subst hae
      simp [position, ha]
    · have hne : ¬e = a := fun h => ha (beq_iff_eq.mpr h.symm)
      cases hpos : position (fun x => x == e) l with
      | none =>
        have hnotmem := ih.mp hpos
        simp [position, ha, hpos, hne, hnotmem]
      | some i =>
        have hmem : e ∈ l := by
          by_contra hn
          rw [ih.mpr hn] at hpos
          exact Option.noConfusion hpos
        simp [position, ha, hpos, hmem]

/-- When the first-match scan hits, it reports an index holding the entity,
and removing that index is removing the first occurrence. -/
theorem position_spec (e : Entity) : ∀ (l : List Entity) (i : Nat),
    position (fun x => x == e) l = some i →
    l[i]? = some e ∧ l.eraseIdx i = l.erase e := by
  intro l
  induction l with
  | nil => intro i h; simp [position] at h
  | cons a l ih =>
    intro i h
    by_cases ha : (a == e) = true
    · have hae : a = e := beq_iff_eq.mp ha
      have hi : i = 0 := by
        simp [position, ha] at h
        omega
      subst hi
      simp [hae, List.erase_cons, ha]
    · cases hpos : position (fun x => x == e) l with
      | none => simp [position, ha, hpos] at h
      | some j =>
        have hij : i = j + 1 := by
          simp [position, ha, hpos] at h
          omega
        subst hij
        obtain ⟨h1, h2⟩ := ih j hpos
        refine ⟨by simpa using h1, ?_⟩
        simp [List.eraseIdx, List.erase_cons, ha, h2]

/-- SelectedEntities.remove, characterised through membership and erase. -/
theorem remove_spec (s : SelectedEntities) (e : Entity) :
    s.remove e = if e ∈ s.entities
      then ({ s with entities := s.entities.erase e }, some e)
      else (s, none) := by
  unfold SelectedEntities.remove
  by_cases hm : e ∈ s.entities
  · rw [if_pos hm]
    cases hp : position (fun x => x == e) s.entities with
    | none => exact absurd ((position_eq_none e s.entities).mp hp) (by simpa using hm)
    | some i =>
      obtain ⟨h1, h2⟩ := position_spec e s.entities i hp
      show ({ s with entities := s.entities.eraseIdx i }, s.entities[i]?) = _
      rw [h1, h2]
  · rw [if_neg hm, (position_eq_none e s.entities).mpr hm]

/-- toggle on a state holding the entity removes its first occurrence. -/
theorem toggle_entities_of_mem (s : SelectedEntities) (e : Entity) (h : e ∈ s.entities) :
    (s.toggle e).entities = s.entities.erase e := by
  unfold SelectedEntities.toggle
  rw [remove_spec, if_pos h]
  rfl

/-- toggle on a state not holding the entity pushes it at the end. -/
theorem toggle_entities_of_not_mem (s : SelectedEntities) (e : Entity) (h : e ∉ s.entities) :
    (s.toggle e).entities = s.entities ++ [e] := by
  unfold SelectedEntities.toggle
  rw [remove_spec, if_neg h]
  rfl

/-- toggle does not touch last_action. -/
theorem toggle_last_action (s : SelectedEntities) (e : Entity) :
    (s.toggle e).last_action = s.last_action := by
  unfold SelectedEntities.toggle
  rw [remove_spec]
  by_cases hm : e ∈ s.entities
  · rw [if_pos hm]
    rfl
  · rw [if_neg hm]
    rfl

/-- toggle preserves freedom from duplicates. -/
theorem toggle_nodup (s : SelectedEntities) (e : Entity) (h : s.entities.Nodup) :
    (s.toggle e).entities.Nodup := by
  by_cases hm : e ∈ s.entities
  · rw [toggle_entities_of_mem s e hm]; exact h.erase e
  · rw [toggle_entities_of_not_mem s e hm]
    exact (List.perm_append_singleton e s.entities).nodup_iff.mpr
      (List.nodup_cons.mpr ⟨hm, h⟩)

/-- Folding insert over a range never touches last_action. -/
theorem foldl_insert_last_action :
    ∀ (l : List Entity) (s : SelectedEntities),
    (l.foldl (fun acc e => acc.insert e) s).last_action = s.last_action := by
  intro l
  induction l with
  | nil => intro s; rfl
  | cons a l ih => intro s; rw [List.foldl_cons, ih, insert_last_action]

/-- Folding insert over a range preserves freedom from duplicates. -/
theorem foldl_insert_nodup :
    ∀ (l : List Entity) (s : SelectedEntities), s.entities.Nodup →
    (l.foldl (fun acc e => acc.insert e) s).entities.Nodup := by
  intro l
  induction l with
  | nil => intro s h; exact h
  | cons a l ih => intro s h; rw [List.foldl_cons]; exact ih _ (insert_nodup s a h)

/-- One select call preserves freedom from duplicates. -/
theorem select_nodup (s : SelectedEntities) (mode : SelectionMode) (e : Entity)
    (r : Entity → Entity → List Entity) (h : s.entities.Nodup) :
    (s.select mode e r).entities.Nodup := by
  unfold SelectedEntities.select
  split
  · exact insert_nodup s e h
  · match mode with
    | .Replace => simp [SelectedEntities.insert_replace]
    | .Add => exact toggle_nodup s e h
    | .Extend =>
      match s.last_action with
      | none => exact insert_nodup s e h
      | some (last_mode, last_entity) =>
        match last_mode with
        | .Add => exact foldl_insert_nodup _ s.clear (by simp [SelectedEntities.clear])
        | .Replace => exact foldl_insert_nodup _ s.clear (by simp [SelectedEntities.clear])
        | .Extend => exact foldl_insert_nodup _ s h

/-- The entity list produced by one select call with mode Add. -/
theorem select_add_entities (s : SelectedEntities) (e : Entity)
    (r : Entity → Entity → List Entity) :
    (s.select .Add e r).entities =
      if s.entities = [] then [e]
      else if e ∈ s.entities then s.entities.erase e
      else s.entities ++ [e] := by
  by_cases h0 : s.entities = []
  · have hlen : s.entities.length = 0 := by rw [h0]; rfl
    simp only [SelectedEntities.select, if_pos hlen, if_pos h0]
    rw [insert_entities_of_not_mem s e (by rw [h0]; simp), h0]
    rfl
  · have hlen : ¬s.entities.length = 0 := fun hl => h0 (List.length_eq_zero.mp hl)
    simp only [SelectedEntities.select, if_neg hlen, if_neg h0]
    by_cases hm : e ∈ s.entities
    · rw [if_pos hm]
      exact toggle_entities_of_mem s e hm
    · rw [if_neg hm]
      exact toggle_entities_of_not_mem s e hm

/-- C2 counterexample: on an empty selection, a select call with mode Extend
takes the bootstrap branch and overwrites last_action with (Extend, clicked),
so Extend does not leave last_action unchanged for every prior state. -/
theorem C2_counterexample :
    (SelectedEntities.empty.select .Extend 5 (fun _ _ => [])).last_action ≠
      SelectedEntities.empty.last_action := by
  decide

/-- C2 (amended): whenever the prior selection is non-empty and last_action
is Some, a select call with mode Extend leaves last_action unchanged; hence a
chain of Extend clicks through non-empty states keeps the original anchor. -/
theorem C2_extend_keeps_last_action :
    ∀ (s : SelectedEntities) (e : Entity) (r : Entity → Entity → List Entity)
      (la : SelectionMode × Entity),
    s.entities ≠ [] → s.last_action = some la →
    (s.select .Extend e r).last_action = some la := by
  intro s e r la h hla
  have hlen : ¬s.entities.length = 0 := fun h0 => h (List.length_eq_zero.mp h0)
  obtain ⟨lm, le⟩ := la
  simp only [SelectedEntities.select, if_neg hlen, hla]
  cases lm <;> simp [foldl_insert_last_action, SelectedEntities.clear, hla]

/-- C2 witness: a concrete Extend call after a Replace on entity 7 keeps the
anchor (Replace, 7). -/
theorem C2_witness :
    ((⟨[7], some (.Replace, 7)⟩ : SelectedEntities).select .Extend 9
      (fun c a => [a, 8, c])).last_action = some (.Replace, 7) :=
  C2_extend_keeps_last_action ⟨[7], some (.Replace, 7)⟩ 9 (fun c a => [a, 8, c])
    (.Replace, 7) (by decide) rfl

/-- Folding a sequence of select calls preserves freedom from duplicates. -/
theorem foldl_select_nodup :
    ∀ (ops : List (SelectionMode × Entity × (Entity → Entity → List Entity)))
      (s : SelectedEntities), s.entities.Nodup →
    (ops.foldl (fun s op => s.select op.1 op.2.1 op.2.2) s).entities.Nodup := by
  intro ops
  induction ops with
  | nil => intro s h; exact h
  | cons op ops ih =>
    intro s h
    rw [List.foldl_cons]
    exact ih _ (select_nodup s op.1 op.2.1 op.2.2 h)

/-- C4: starting from the empty selection, any sequence of select calls, with
any modes, entities and range resolvers, leaves entities free of duplicates. -/
theorem C4_no_duplicates
    (ops : List (SelectionMode × Entity × (Entity → Entity → List Entity))) :
    (run_selects ops).entities.Nodup :=
  foldl_select_nodup ops SelectedEntities.empty List.nodup_nil

/-- C5: on any non-empty prior selection, select with mode Replace yields
exactly the clicked entity and records (Replace, clicked) as last action. -/
theorem C5_replace_semantics :
    ∀ (s : SelectedEntities) (e : Entity) (r : Entity → Entity → List Entity),
    s.entities ≠ [] →
    (s.select .Replace e r).entities = [e] ∧
      (s.select .Replace e r).last_action = some (.Replace, e) := by
  intro s e r h
  have hlen : ¬s.entities.length = 0 := fun h0 => h (List.length_eq_zero.mp h0)
  unfold SelectedEntities.select
  rw [if_neg hlen]
  exact ⟨rfl, rfl⟩

/-- C5 witness: replacing a two-entity selection with entity 5. -/
theorem C5_witness :
    ((⟨[1, 2], none⟩ : SelectedEntities).select .Replace 5 (fun _ _ => [])).entities = [5] ∧
      ((⟨[1, 2], none⟩ : SelectedEntities).select .Replace 5
        (fun _ _ => [])).last_action = some (.Replace, 5) :=
  C5_replace_semantics ⟨[1, 2], none⟩ 5 (fun _ _ => []) (by decide)

/-- C6 counterexample: toggling entity 1 off and on again in the selection
[1, 2] moves it to the end, so the entity sequence is not restored. -/
theorem C6_counterexample :
    (((⟨[1, 2], none⟩ : SelectedEntities).select .Add 1 (fun _ _ => [])).select .Add 1
      (fun _ _ => [])).entities ≠ (⟨[1, 2], none⟩ : SelectedEntities).entities := by
  decide

/-- C6 (amended): from any duplicate-free starting state, two consecutive
select calls with mode Add on the same entity restore the selection up to
order: the resulting entity sequence is a permutation of the original (and is
equal to it whenever the entity was absent or was the last element). -/
theorem C6_add_twice_perm :
    ∀ (s : SelectedEntities) (e : Entity) (r₁ r₂ : Entity → Entity → List Entity),
    s.entities.Nodup →
    ((s.select .Add e r₁).select .Add e r₂).entities.Perm s.entities := by
  intro s e r₁ r₂ hnd
  have h1 := select_add_entities s e r₁
  rw [select_add_entities (s.select .Add e r₁) e r₂, h1]
  by_cases h0 : s.entities = []
  · rw [if_pos h0]
    have hne : ¬([e] : List Entity) = [] := by simp
    rw [if_neg hne, if_pos (List.mem_singleton_self e), List.erase_cons_head, h0]
  · rw [if_neg h0]
    by_cases hm : e ∈ s.entities
    · rw [if_pos hm]
      by_cases h2 : s.entities.erase e = []
      · rw [if_pos h2]
        have hp := List.perm_cons_erase hm
        rw [h2] at hp
        exact hp.symm
      · rw [if_neg h2]
        have hne : e ∉ s.entities.erase e := fun hc => (hnd.mem_erase_iff.mp hc).1 rfl
        rw [if_neg hne]
        exact (List.perm_append_singleton e _).trans (List.perm_cons_erase hm).symm
    · rw [if_neg hm]
      have hne2 : ¬(s.entities ++ [e]) = [] := by simp
      rw [if_neg hne2, if_pos (List.mem_append_right _ (List.mem_singleton_self e)),
        List.erase_append_right _ hm, List.erase_cons_head]
      simp

/-- C6 witness: two Add clicks on entity 1 from [1, 2] give a permutation of
[1, 2]. -/
theorem C6_witness :
    ((((⟨[1, 2], none⟩ : SelectedEntities).select .Add 1 (fun _ _ => [])).select .Add 1
      (fun _ _ => [])).entities).Perm [1, 2] :=
  C6_add_twice_perm ⟨[1, 2], none⟩ 1 (fun _ _ => []) (fun _ _ => []) (by decide)

/-- C8: on a non-empty selection whose last action was Replace or Add, an
Extend click whose range resolver returns the empty range clears the
selection and inserts nothing, leaving entities empty. -/
theorem C8_extend_empty_range :
    ∀ (s : SelectedEntities) (clicked a : Entity) (m : SelectionMode)
      (r : Entity → Entity → List Entity),
    s.entities ≠ [] → s.last_action = some (m, a) → (m = .Replace ∨ m = .Add) →
    r clicked a = [] →
    (s.select .Extend clicked r).entities = [] := by
  intro s clicked a m r h hla hm hr
  have hlen : ¬s.entities.length = 0 := fun h0 => h (List.length_eq_zero.mp h0)
  simp only [SelectedEntities.select, if_neg hlen, hla]
  rcases hm with rfl | rfl <;> simp [hr, SelectedEntities.clear]

/-- C8 witness: extending from anchor 3 with an empty range empties the
selection [3, 4]. -/
theorem C8_witness :
    ((⟨[3, 4], some (.Replace, 3)⟩ : SelectedEntities).select .Extend 9
      (fun _ _ => [])).entities = [] :=
  C8_extend_empty_range ⟨[3, 4], some (.Replace, 3)⟩ 9 3 .Replace (fun _ _ => [])
    (by decide) rfl (Or.inl rfl) rfl

/-- The linkage invariant splits over append. -/
theorem LinkInv_append : ∀ (l₁ l₂ ctx : List HierarchyElement),
    LinkInv ctx (l₁ ++ l₂) ↔ LinkInv ctx l₁ ∧ LinkInv (ctx ++ l₁) l₂ := by
  intro l₁
  induction l₁ with
  | nil => intro l₂ ctx; simp [LinkInv]
  | cons a l₁ ih =>
    intro l₂ ctx
    show LinkInv ctx (a :: (l₁ ++ l₂)) ↔ _
    rw [show LinkInv ctx (a :: (l₁ ++ l₂)) =
        (linked ctx a ∧ LinkInv (ctx ++ [a]) (l₁ ++ l₂)) from rfl,
      show LinkInv ctx (a :: l₁) = (linked ctx a ∧ LinkInv (ctx ++ [a]) l₁) from rfl,
      ih l₂ (ctx ++ [a]), List.append_cons ctx a l₁, and_assoc]

/-- The linkage invariant is monotone in the context. -/
theorem LinkInv_mono : ∀ (l ctx ctx' : List HierarchyElement),
    (∀ x ∈ ctx, x ∈ ctx') → LinkInv ctx l → LinkInv ctx' l := by
  intro l
  induction l with
  | nil => intro ctx ctx' _ _; trivial
  | cons a l ih =>
    intro ctx ctx' hsub h
    obtain ⟨hl, hrest⟩ := h
    refine ⟨?_, ?_⟩
    · intro p hp
      obtain ⟨pe, hpe, hent, hdep⟩ := hl p hp
      exact ⟨pe, hsub pe hpe, hent, hdep⟩
    · refine ih (ctx ++ [a]) (ctx' ++ [a]) ?_ hrest
      intro x hx
      rcases List.mem_append.mp hx with h1 | h1
      · exact List.mem_append_left _ (hsub x h1)
      · exact List.mem_append_right _ h1

/-- Unfolding equation of add_recursive at positive fuel. -/
theorem add_recursive_succ (w : World) (fuel depth : Nat) (entity : Entity)
    (parent : Option Entity) :
    add_recursive w (fuel + 1) depth entity parent =
      ⟨entity, parent, w.name entity, depth, (w.children entity).isSome⟩ ::
        (match w.children entity with
         | none => []
         | some cs =>
           cs.flatMap fun c => add_recursive w fuel ((depth + 1) % 256) c (some entity)) := rfl

/-- Unfolding equation of the linkage invariant on a cons cell. -/
theorem LinkInv_cons (ctx : List HierarchyElement) (a : HierarchyElement)
    (l : List HierarchyElement) :
    LinkInv ctx (a :: l) ↔ linked ctx a ∧ LinkInv (ctx ++ [a]) l := Iff.rfl

/-- The list produced by add_recursive satisfies the linkage invariant in any
context that justifies the incoming parent and depth. -/
theorem add_recursive_inv (w : World) : ∀ (fuel : Nat), ∀ (depth : Nat) (entity : Entity)
    (parent : Option Entity) (ctx : List HierarchyElement),
    (∀ p, parent = some p → ∃ pe ∈ ctx, pe.entity = p ∧ depth = (pe.depth + 1) % 256) →
    LinkInv ctx (add_recursive w fuel depth entity parent) := by
  intro fuel
  induction fuel with
  | zero => intro depth entity parent ctx _; trivial
  | succ fuel ih =>
    intro depth entity parent ctx hpar
    rw [add_recursive_succ, LinkInv_cons]
    refine ⟨hpar, ?_⟩
    cases hch : w.children entity with
    | none => trivial
    | some cs =>
      have aux : ∀ (cs' : List Entity) (ctx' : List HierarchyElement),
          (∃ pe ∈ ctx', pe.entity = entity ∧ pe.depth = depth) →
          LinkInv ctx'
            (cs'.flatMap fun c => add_recursive w fuel ((depth + 1) % 256) c (some entity)) := by
        intro cs'
        induction cs' with
        | nil => intro ctx' _; trivial
        | cons c cs' ihc =>
          intro ctx' hctx
          rw [List.flatMap_cons, LinkInv_append]
          obtain ⟨pe, hpe, hent, hdep⟩ := hctx
          constructor
          · refine ih ((depth + 1) % 256) c (some entity) ctx' ?_
            intro p hp
            have hep : entity = p := by injection hp
            subst hep
            exact ⟨pe, hpe, hent, by rw [hdep]⟩
          · exact ihc (ctx' ++ _) ⟨pe, List.mem_append_left _ hpe, hent, hdep⟩
      exact aux cs (ctx ++ [_])
        ⟨_, List.mem_append_right _ (List.mem_singleton_self _), rfl, rfl⟩

/-- Every snapshot satisfies the linkage invariant in the empty context. -/
theorem read_from_world_inv (w : World) (roots : List Entity) (fuel : Nat) :
    LinkInv [] (read_from_world w roots fuel) := by
  unfold read_from_world
  have aux : ∀ (rs : List Entity) (ctx : List HierarchyElement),
      LinkInv ctx (rs.flatMap fun root => add_recursive w fuel 0 root none) := by
    intro rs
    induction rs with
    | nil => intro ctx; trivial
    | cons root rs ih =>
      intro ctx
      rw [List.flatMap_cons, LinkInv_append]
      exact ⟨add_recursive_inv w fuel 0 root none ctx (by intro p hp; cases hp), ih _⟩
  exact aux _ []

/-- Index form of the linkage invariant: the parent witness either lies in the
context or occurs at a strictly smaller index. -/
theorem LinkInv_index : ∀ (l ctx : List HierarchyElement), LinkInv ctx l →
    ∀ i, ∀ hi : i < l.length, ∀ p, (l.get ⟨i, hi⟩).parent = some p →
    ∃ pe, (pe ∈ ctx ∨ ∃ j, ∃ hj : j < l.length, j < i ∧ l.get ⟨j, hj⟩ = pe) ∧
      pe.entity = p ∧ (l.get ⟨i, hi⟩).depth = (pe.depth + 1) % 256 := by
  intro l
  induction l with
  | nil => intro ctx _ i hi; exact absurd hi (Nat.not_lt_zero i)
  | cons el rest ih =>
    intro ctx h i hi p hp
    obtain ⟨hl, hrest⟩ := h
    cases i with
    | zero =>
      obtain ⟨pe, hpe, hent, hdep⟩ := hl p hp
      exact ⟨pe, Or.inl hpe, hent, hdep⟩
    | succ i =>
      have hi' : i < rest.length := Nat.lt_of_succ_lt_succ hi
      obtain ⟨pe, hloc, hent, hdep⟩ := ih (ctx ++ [el]) hrest i hi' p hp
      refine ⟨pe, ?_, hent, hdep⟩
      rcases hloc with hmem | ⟨j, hj, hji, hget⟩
      · rcases List.mem_append.mp hmem with h1 | h1
        · exact Or.inl h1
        · refine Or.inr ⟨0, Nat.succ_pos _, Nat.succ_pos i, ?_⟩
          rw [List.mem_singleton] at h1
          exact h1 ▸ rfl
      · exact Or.inr ⟨j + 1, Nat.succ_lt_succ hj, Nat.succ_lt_succ hji, hget⟩

/-- Pre-order plus depth law for snapshots: every parent reference is resolved
by an earlier element, and the depth of the child is the successor of the
depth of that element taken modulo 256. -/
theorem read_from_world_preorder (w : World) (roots : List Entity) (fuel : Nat) :
    ∀ i, ∀ hi : i < (read_from_world w roots fuel).length, ∀ p,
    ((read_from_world w roots fuel).get ⟨i, hi⟩).parent = some p →
    ∃ j, ∃ hj : j < (read_from_world w roots fuel).length, j < i ∧
      ((read_from_world w roots fuel).get ⟨j, hj⟩).entity = p ∧
      ((read_from_world w roots fuel).get ⟨i, hi⟩).depth =
        (((read_from_world w roots fuel).get ⟨j, hj⟩).depth + 1) % 256 := by
  intro i hi p hp
  obtain ⟨pe, hloc, hent, hdep⟩ :=
    LinkInv_index _ [] (read_from_world_inv w roots fuel) i hi p hp
  rcases hloc with hmem | ⟨j, hj, hji, hget⟩
  · cases hmem
  · exact ⟨j, hj, hji, hget ▸ hent, hget ▸ hdep⟩

/-- Snapshots satisfy the pre-order guarantee. -/
theorem read_from_world_parents_earlier (w : World) (roots : List Entity) (fuel : Nat) :
    ParentsEarlier (read_from_world w roots fuel) := by
  intro i hi p hp
  obtain ⟨j, hj, hji, hent, _⟩ := read_from_world_preorder w roots fuel i hi p hp
  exact ⟨j, hj, hji, hent⟩

/-- In the list produced by add_recursive, only the head can carry parent
none, so a parentless element fixes the incoming parent and depth. -/
theorem add_recursive_root_depth (w : World) : ∀ (fuel : Nat), ∀ (depth : Nat)
    (entity : Entity) (parent : Option Entity) (el : HierarchyElement),
    el ∈ add_recursive w fuel depth entity parent → el.parent = none →
    parent = none ∧ el.depth = depth := by
  intro fuel
  induction fuel with
  | zero => intro depth entity parent el h; cases h
  | succ fuel ih =>
    intro depth entity parent el h hroot
    rcases List.mem_cons.mp h with rfl | htail
    · exact ⟨hroot, rfl⟩
    · cases hch : w.children entity with
      | none => rw [hch] at htail; cases htail
      | some cs =>
        rw [hch] at htail
        obtain ⟨c, _, hmem⟩ := List.mem_flatMap.mp htail
        obtain ⟨habs, _⟩ := ih ((depth + 1) % 256) c (some entity) el hmem hroot
        cases habs

/-- Root elements of a snapshot have depth 0. -/
theorem read_from_world_root_depth (w : World) (roots : List Entity) (fuel : Nat)
    (el : HierarchyElement) (h : el ∈ read_from_world w roots fuel)
    (hroot : el.parent = none) : el.depth = 0 := by
  obtain ⟨root, _, hmem⟩ := List.mem_flatMap.mp h
  exact (add_recursive_root_depth w fuel 0 root none el hmem hroot).2

/-- Unfolding equation of is_visible at positive fuel. -/
theorem is_visible_succ (elements : List HierarchyElement) (expanded : Entity → Bool)
    (fuel : Nat) (el : HierarchyElement) :
    is_visible elements expanded (fuel + 1) el =
      match el.parent with
      | none => true
      | some parent =>
        match elements.find? (fun e => e.entity == parent) with
        | some pe => expanded pe.entity && is_visible elements expanded fuel pe
        | none => false := rfl

/-- is_visible is monotone in the fuel. -/
theorem is_visible_mono (elements : List HierarchyElement) (expanded : Entity → Bool) :
    ∀ (f₁ f₂ : Nat) (el : HierarchyElement), f₁ ≤ f₂ →
    is_visible elements expanded f₁ el = true → is_visible elements expanded f₂ el = true := by
  intro f₁
  induction f₁ with
  | zero => intro f₂ el _ h; simp [is_visible] at h
  | succ f₁ ih =>
    intro f₂ el hle h
    cases f₂ with
    | zero => exact absurd hle (by omega)
    | succ f₂ =>
      rw [is_visible_succ] at h ⊢
      cases hp : el.parent with
      | none => rfl
      | some parent =>
        simp only [hp] at h ⊢
        cases hf : elements.find? (fun e => e.entity == parent) with
        | none => simp only [hf] at h; exact absurd h (by simp)
        | some pe =>
          simp only [hf] at h ⊢
          rw [Bool.and_eq_true] at h ⊢
          exact ⟨h.1, ih f₂ pe (Nat.le_of_succ_le_succ hle) h.2⟩

/-- Accepting fuel-bounded visibility implies the specified visibility. -/
theorem is_visible_sound (elements : List HierarchyElement) (expanded : Entity → Bool) :
    ∀ (fuel : Nat) (el : HierarchyElement),
    is_visible elements expanded fuel el = true → SpecVisible elements expanded el := by
  intro fuel
  induction fuel with
  | zero => intro el h; simp [is_visible] at h
  | succ fuel ih =>
    intro el h
    rw [is_visible_succ] at h
    cases hp : el.parent with
    | none => exact SpecVisible.root el hp
    | some parent =>
      simp only [hp] at h
      cases hf : elements.find? (fun e => e.entity == parent) with
      | none => simp only [hf] at h; exact absurd h (by simp)
      | some pe =>
        simp only [hf] at h
        rw [Bool.and_eq_true] at h
        exact SpecVisible.child el pe parent hp hf h.1 (ih pe h.2)

/-- find? returns a hit at the first matching index, hence at an index no
larger than any matching index. -/
theorem find?_min {α : Type} (pr : α → Bool) : ∀ (l : List α) (j : Nat) (hj : j < l.length),
    pr (l.get ⟨j, hj⟩) = true →
    ∃ k, ∃ hk : k < l.length, k ≤ j ∧ l.find? pr = some (l.get ⟨k, hk⟩) := by
  intro l
  induction l with
  | nil => intro j hj; exact absurd hj (Nat.not_lt_zero j)
  | cons a t ih =>
    intro j hj hpr
    by_cases ha : pr a = true
    · exact ⟨0, Nat.succ_pos _, Nat.zero_le j, by simp [List.find?_cons, ha]⟩
    · have haf : pr a = false := by revert ha; cases pr a <;> simp
      cases j with
      | zero =>
        have : pr a = true := by simpa using hpr
        exact absurd this ha
      | succ j =>
        have hj' : j < t.length := Nat.lt_of_succ_lt_succ hj
        have hpr' : pr (t.get ⟨j, hj'⟩) = true := by simpa using hpr
        obtain ⟨k, hk, hkj, hfind⟩ := ih j hj' hpr'
        refine ⟨k + 1, Nat.succ_lt_succ hk, Nat.succ_le_succ hkj, ?_⟩
        simp [List.find?_cons, haf, hfind]

/-- Under the pre-order guarantee, the specified visibility of the element at
index i is decided by is_visible with fuel i + 1. -/
theorem is_visible_complete (elements : List HierarchyElement) (expanded : Entity → Bool)
    (hPE : ParentsEarlier elements) :
    ∀ i, ∀ hi : i < elements.length,
    SpecVisible elements expanded (elements.get ⟨i, hi⟩) →
    is_visible elements expanded (i + 1) (elements.get ⟨i, hi⟩) = true := by
  intro i
  induction i using Nat.strong_induction_on with
  | _ i ih =>
    intro hi hvis
    cases hvis with
    | root el2 h =>
      rw [is_visible_succ]
      simp only [h]
    | child el pe p hp hfind hexp hpe =>
      obtain ⟨j, hj, hji, hent⟩ := hPE i hi p hp
      have hprj : (fun e => e.entity == p) (elements.get ⟨j, hj⟩) = true := by
        simp only [beq_iff_eq]
        exact hent
      obtain ⟨k, hk, hkj, hfind2⟩ := find?_min (fun e => e.entity == p) elements j hj hprj
      have hpe_eq : pe = elements.get ⟨k, hk⟩ := by
        rw [hfind] at hfind2
        exact Option.some.inj hfind2
      have hki : k < i := Nat.lt_of_le_of_lt hkj hji
      have hvk : is_visible elements expanded (k + 1) (elements.get ⟨k, hk⟩) = true :=
        ih k hki hk (hpe_eq ▸ hpe)
      have hvi : is_visible elements expanded i (elements.get ⟨k, hk⟩) = true :=
        is_visible_mono elements expanded (k + 1) i _ hki hvk
      rw [is_visible_succ]
      simp only [hp, hfind2]
      rw [Bool.and_eq_true]
      exact ⟨hpe_eq ▸ hexp, hvi⟩

/-- Under the pre-order guarantee, is_visible at the canonical fuel agrees
with the specified visibility on members of the list. -/
theorem is_visible_iff_spec (elements : List HierarchyElement) (expanded : Entity → Bool)
    (hPE : ParentsEarlier elements) (el : HierarchyElement) (hel : el ∈ elements) :
    is_visible elements expanded (elements.length + 1) el = true ↔
      SpecVisible elements expanded el := by
  constructor
  · exact is_visible_sound elements expanded _ el
  · intro hvis
    obtain ⟨i, hi, heq⟩ := List.getElem_of_mem hel
    have hg : elements.get ⟨i, hi⟩ = el := by
      rw [List.get_eq_getElem]
      exact heq
    have h1 : is_visible elements expanded (i + 1) el = true := by
      have h2 := is_visible_complete elements expanded hPE i hi (by rw [hg]; exact hvis)
      rw [hg] at h2
      exact h2
    exact is_visible_mono elements expanded (i + 1) (elements.length + 1) el
      (Nat.succ_le_succ (Nat.le_of_lt hi)) h1

/-- C1: on every snapshot, read_expanded fills visible_elements with exactly
the entities of the elements whose full ancestor chain is expanded, in the
relative order of elements: the result is a sublist of the entity sequence of
elements, and an entity is listed iff some element carrying it satisfies the
recursive visibility rule (parent none, or parent element visible and
expanded). -/
theorem C1_compute_visible (w : World) (roots : List Entity) (fuel : Nat)
    (expanded : Entity → Bool) :
    (read_expanded (read_from_world w roots fuel) expanded).Sublist
      ((read_from_world w roots fuel).map (fun el => el.entity)) ∧
    ∀ e : Entity, e ∈ read_expanded (read_from_world w roots fuel) expanded ↔
      ∃ el ∈ read_from_world w roots fuel, el.entity = e ∧
        SpecVisible (read_from_world w roots fuel) expanded el := by
  constructor
  · exact List.Sublist.map _ (List.filter_sublist _)
  · intro e
    rw [read_expanded]
    simp only [List.mem_map, List.mem_filter]
    constructor
    · rintro ⟨el, ⟨hmem, hvis⟩, rfl⟩
      exact ⟨el, hmem, rfl,
        (is_visible_iff_spec _ expanded (read_from_world_parents_earlier w roots fuel)
          el hmem).mp hvis⟩
    · rintro ⟨el, hmem, rfl, hspec⟩
      exact ⟨el, ⟨hmem,
        (is_visible_iff_spec _ expanded (read_from_world_parents_earlier w roots fuel)
          el hmem).mpr hspec⟩, rfl⟩

/-- C1 witness: the visible entities of a concrete snapshot are listed in
snapshot order. -/
theorem C1_witness :
    (read_expanded (read_from_world two_world [1] 3) (fun _ => true)).Sublist
      ((read_from_world two_world [1] 3).map (fun el => el.entity)) :=
  (C1_compute_visible two_world [1] 3 (fun _ => true)).1

/-- C9: an element whose parent entity occurs nowhere in elements is never
visible, for any fuel and any expanded lookup, and hence contributes nothing
to the visible filter. -/
theorem C9_orphan_invisible (elements : List HierarchyElement) (expanded : Entity → Bool)
    (fuel : Nat) (el : HierarchyElement) (p : Entity) (hp : el.parent = some p)
    (horph : ∀ el2 ∈ elements, el2.entity ≠ p) :
    is_visible elements expanded fuel el = false ∧
      el ∉ elements.filter
        (fun e2 => is_visible elements expanded (elements.length + 1) e2) := by
  have hfalse : ∀ f, is_visible elements expanded f el = false := by
    intro f
    cases f with
    | zero => rfl
    | succ f =>
      rw [is_visible_succ]
      simp only [hp]
      have hnone : elements.find? (fun e => e.entity == p) = none := by
        rw [List.find?_eq_none]
        intro x hx
        simp [horph x hx]
      simp [hnone]
  refine ⟨hfalse fuel, ?_⟩
  intro hmem
  have hvis := (List.mem_filter.mp hmem).2
  rw [hfalse (elements.length + 1)] at hvis
  cases hvis

/-- C9 witness: a concrete element with a dangling parent reference is
invisible over the empty element list. -/
theorem C9_witness :
    is_visible [] (fun _ => false) 1 ⟨5, some 3, "x", 1, false⟩ = false ∧
      (⟨5, some 3, "x", 1, false⟩ : HierarchyElement) ∉
        ([] : List HierarchyElement).filter
          (fun e2 => is_visible [] (fun _ => false)
            (([] : List HierarchyElement).length + 1) e2) :=
  C9_orphan_invisible [] (fun _ => false) 1 ⟨5, some 3, "x", 1, false⟩ 3 rfl
    (by intro el2 h; cases h)

set_option maxRecDepth 4000 in
set_option maxHeartbeats 1000000 in
/-- C3 counterexample: in the 257-deep chain snapshot, the element at index
256 has parent entity 255 but depth 0, because the u8 depth counter wraps
at 256; no earlier element has depth satisfying the unreduced successor law. -/
theorem C3_counterexample :
    ¬ ∀ i, ∀ hi : i < chain_elements.length, ∀ p,
      (chain_elements.get ⟨i, hi⟩).parent = some p →
      ∃ j, ∃ hj : j < chain_elements.length, j < i ∧
        (chain_elements.get ⟨j, hj⟩).entity = p ∧
        (chain_elements.get ⟨i, hi⟩).depth = (chain_elements.get ⟨j, hj⟩).depth + 1 := by
  intro h
  have hlen : 256 < chain_elements.length := by decide
  have hp : (chain_elements.get ⟨256, hlen⟩).parent = some 255 :=
    (by decide : (chain_elements.get ⟨256, by decide⟩).parent = some 255)
  have hd : (chain_elements.get ⟨256, hlen⟩).depth = 0 :=
    (by decide : (chain_elements.get ⟨256, by decide⟩).depth = 0)
  obtain ⟨j, hj, hji, hent, hdep⟩ := h 256 hlen 255 hp
  rw [hd] at hdep
  exact Nat.succ_ne_zero _ hdep.symm

/-- C3 (amended): in every snapshot, every element whose parent is some p is
preceded at a strictly smaller index by an element with entity p whose depth
d satisfies child depth = (d + 1) % 256 (the depth counter is a u8, so the
successor is taken modulo 256 and agrees with d + 1 whenever d < 255), and
elements with parent none have depth 0. -/
theorem C3_preorder_depth (w : World) (roots : List Entity) (fuel : Nat) :
    (∀ i, ∀ hi : i < (read_from_world w roots fuel).length, ∀ p,
      ((read_from_world w roots fuel).get ⟨i, hi⟩).parent = some p →
      ∃ j, ∃ hj : j < (read_from_world w roots fuel).length, j < i ∧
        ((read_from_world w roots fuel).get ⟨j, hj⟩).entity = p ∧
        ((read_from_world w roots fuel).get ⟨i, hi⟩).depth =
          (((read_from_world w roots fuel).get ⟨j, hj⟩).depth + 1) % 256) ∧
    ∀ el ∈ read_from_world w roots fuel, el.parent = none → el.depth = 0 :=
  ⟨read_from_world_preorder w roots fuel, read_from_world_root_depth w roots fuel⟩

/-- C3 witness: in the two-entity snapshot, the child element at index 1 is
preceded by its parent with the modular depth law. -/
theorem C3_witness :
    ∃ j, ∃ hj : j < (read_from_world two_world [1] 3).length, j < 1 ∧
      ((read_from_world two_world [1] 3).get ⟨j, hj⟩).entity = 1 ∧
      ((read_from_world two_world [1] 3).get ⟨1, by decide⟩).depth =
        (((read_from_world two_world [1] 3).get ⟨j, hj⟩).depth + 1) % 256 :=
  (C3_preorder_depth two_world [1] 3).1 1 (by decide) 1 (by decide)

/-- C7: the snapshot is a function of the graph alone: two root enumerations
that are permutations of one another, as two consecutive query runs over an
unchanged graph are, produce identical element sequences, because the roots
are sorted by the total order on identifiers before traversal. -/
theorem C7_deterministic (w : World) (fuel : Nat) (roots₁ roots₂ : List Entity)
    (h : roots₁.Perm roots₂) :
    read_from_world w roots₁ fuel = read_from_world w roots₂ fuel := by
  have hsort : roots₁.insertionSort (· ≤ ·) = roots₂.insertionSort (· ≤ ·) :=
    List.eq_of_perm_of_sorted
      (((List.perm_insertionSort _ roots₁).trans h).trans
        (List.perm_insertionSort _ roots₂).symm)
      (List.sorted_insertionSort _ roots₁)
      (List.sorted_insertionSort _ roots₂)
  rw [read_from_world, read_from_world, hsort]

/-- C7 witness: the two root enumeration orders of the same two roots give
the same snapshot. -/
theorem C7_witness :
    read_from_world two_world [2, 1] 3 = read_from_world two_world [1, 2] 3 :=
  C7_deterministic two_world 3 [2, 1] [1, 2] (List.Perm.swap 1 2 [])

/-- The cache-hit path of get_or_load: a matching entry is returned and the
world is left untouched. -/
theorem get_or_load_hit (ops : ImageOps) (image : ImageHandle) (world : RestrictedWorldView)
    (res : ScaledDownTextures) (info : RescaledTextureInfo)
    (hres : world.scaled_down_textures = some res)
    (hfind : res.textures.find? (fun i2 => i2.base_image.id == image.id) = some info) :
    get_or_load ops image world = (some info, world) := by
  unfold get_or_load
  rw [hres, Option.some_bind, hfind]

/-- C10 counterexample: without an accessible cache resource nothing is
memoized, and two consecutive calls on the same handle return entries with
different freshly allocated handles and texture ids. -/
theorem C10_counterexample :
    (get_or_load probe_ops ⟨0⟩ (get_or_load probe_ops ⟨0⟩ probe_world).2).1 ≠
      (get_or_load probe_ops ⟨0⟩ probe_world).1 := by
  decide

/-- C10 (amended): when the ScaledDownTextures resource is accessible,
get_or_load is a memoizing lookup keyed by image asset id: a cached entry
with the same base image id is returned with the world untouched, and a
second consecutive call with the same handle returns exactly the result and
world of the first, so the results are equal and no new cache entry is
added. -/
theorem C10_memoization (ops : ImageOps) (image : ImageHandle) (world : RestrictedWorldView)
    (res : ScaledDownTextures) (hres : world.scaled_down_textures = some res) :
    (∀ info, res.textures.find? (fun i2 => i2.base_image.id == image.id) = some info →
      get_or_load ops image world = (some info, world)) ∧
    get_or_load ops image (get_or_load ops image world).2 = get_or_load ops image world := by
  refine ⟨fun info hfind => get_or_load_hit ops image world res info hres hfind, ?_⟩
  cases hfind : res.textures.find? (fun i2 => i2.base_image.id == image.id) with
  | some info =>
    rw [get_or_load_hit ops image world res info hres hfind]
    exact get_or_load_hit ops image world res info hres hfind
  | none =>
    cases hegui : world.egui_ok with
    | false =>
      have h1 : get_or_load ops image world = (none, world) := by
        simp only [get_or_load, hres, Option.some_bind, hfind, hegui]
        rfl
      rw [h1]
      exact h1
    | true =>
      cases himg : world.images image.id with
      | none =>
        have h1 : get_or_load ops image world = (none, world) := by
          simp only [get_or_load, hres, Option.some_bind, hfind, hegui, himg]
          rfl
        rw [h1]
        exact h1
      | some original =>
        cases hdyn : ops.try_into_dynamic original with
        | none =>
          have h1 : get_or_load ops image world = (none, world) := by
            simp only [get_or_load, hres, Option.some_bind, hfind, hegui, himg, hdyn]
            rfl
          rw [h1]
          exact h1
        | some pr =>
          obtain ⟨image_gen, is_srgb⟩ := pr
          have h1 : get_or_load ops image world =
              (some ⟨image, ⟨world.next_image_id⟩,
                ⟨world.next_texture_id,
                  ops.dims (ops.from_dynamic
                    (ops.resize image_gen res.max_size.1 res.max_size.2) is_srgb)⟩⟩,
                ⟨some ⟨res.textures ++
                    [⟨image, ⟨world.next_image_id⟩,
                      ⟨world.next_texture_id,
                        ops.dims (ops.from_dynamic
                          (ops.resize image_gen res.max_size.1 res.max_size.2) is_srgb)⟩⟩],
                    res.max_size⟩,
                  world.egui_ok,
                  fun h => if h = world.next_image_id
                    then some (ops.from_dynamic
                      (ops.resize image_gen res.max_size.1 res.max_size.2) is_srgb)
                    else world.images h,
                  world.next_image_id + 1,
                  world.next_texture_id + 1⟩) := by
            simp only [get_or_load, hres, Option.some_bind, hfind, hegui, himg, hdyn]
            simp
          rw [h1]
          refine get_or_load_hit ops image _ _ _ rfl ?_
          rw [List.find?_append, hfind]
          simp [List.find?_singleton]

/-- C10 witness: a cached entry for image 0 is returned unchanged, with the
world untouched. -/
theorem C10_witness :
    get_or_load probe_ops ⟨0⟩ probe_world2 = (some probe_entry, probe_world2) :=
  (C10_memoization probe_ops ⟨0⟩ probe_world2
    { textures := [probe_entry], max_size := (100, 100) } rfl).1 probe_entry rfl
